import Mathlib

/-!
Verification of the `setop` utility (src/main.cpp) against its specification.

The development shallowly embeds the program's core:

* the element comparators (`el_comp_t`, here `String → String → Bool`) and the
  ordered duplicate-free element sets (`set_t`, here sorted `List String`
  together with `std::set`-style insert/erase/find);
* the external pattern engine (boost regex with `match_partial`), modelled by
  regular expressions with Brzozowski derivatives, longest-match search, and
  boost's documented partial-match reporting;
* the streaming tokenizer `file_to_set` with its growable buffer and the
  straddling-match ("safe to finalize") logic;
* the set-algebra fold (`SetConcat`), the subtraction pass, and the query
  evaluator with its exit codes (`SetQuery`, `EXIT_QUERY_NEGATIVE`).

Machine characters are modelled by `Char`, byte strings by `List Char`.
-/

namespace Setop

/-! ## Element sets (`element_t`, `el_comp_t`, `set_t`)

`element_t` is `std::string`, modelled by `String`.  `el_comp_t` is a binary
comparison predicate; `set_t` is `std::set<element_t, el_comp_t>`, modelled by
a list that is kept sorted and duplicate-free with respect to the comparator.
Two elements are *equivalent* when neither compares before the other; a
`std::set` stores at most one element of each equivalence class and `find`
locates elements up to equivalence. -/

/-- Model of `el_comp_t`: the element comparison function. -/
def el_comp_t : Type := String → String → Bool

/-- Equivalence induced by a comparator (`!comp(a,b) && !comp(b,a)`),
exactly the equivalence `std::set` uses for key lookup. -/
def equivB (comp : el_comp_t) (a b : String) : Bool :=
  !comp a b && !comp b a

/-- Model of `set.find(x) != set.end()`: some stored element is
equivalent to `x`. -/
def memB (comp : el_comp_t) (l : List String) (x : String) : Bool :=
  l.any (fun y => equivB comp x y)

/-- Model of `std::set::insert` on the sorted representation: insert `x`
before the first strictly greater element; if an equivalent element is
already stored, leave the set unchanged (first occurrence wins). -/
def insertE (comp : el_comp_t) : List String → String → List String
  | [], x => [x]
  | y :: t, x =>
    if comp x y then x :: y :: t
    else if comp y x then y :: insertE comp t x
    else y :: t

/-- Model of `std::set::erase(key)` / `erase(find(key))` on the sorted
representation: remove the (unique, if the invariant holds) element
equivalent to `x`. -/
def eraseE (comp : el_comp_t) : List String → String → List String
  | [], _ => []
  | y :: t, x =>
    if equivB comp x y then t
    else y :: eraseE comp t x

/-- The `std::set` representation invariant: consecutive stored elements are
strictly increasing under the comparator. -/
def SetInv (comp : el_comp_t) (l : List String) : Prop :=
  List.Chain' (fun a b => comp a b = true) l

/-- Executable check of the `std::set` invariant. -/
def chainB (comp : el_comp_t) : List String → Bool
  | [] => true
  | [_] => true
  | a :: b :: t => comp a b && chainB comp (b :: t)

theorem chainB_iff (comp : el_comp_t) :
    ∀ l : List String, chainB comp l = true ↔ SetInv comp l := by
  intro l
  induction l with
  | nil => simp [chainB, SetInv]
  | cons a t ih =>
    cases t with
    | nil => simp [chainB, SetInv]
    | cons b t' =>
      show (comp a b && chainB comp (b :: t')) = true ↔ _
      rw [Bool.and_eq_true, ih]
      show _ ↔ List.Chain' _ (a :: b :: t')
      rw [List.chain'_cons]
      exact Iff.rfl

instance (comp : el_comp_t) (l : List String) : Decidable (SetInv comp l) :=
  decidable_of_iff _ (chainB_iff comp l)

/-! ### The two run comparators

`execute_setop` installs either `boost::algorithm::lexicographical_compare`
(byte-wise `std::lexicographical_compare`) or its case-insensitive variant
(the same comparison applied to lower-cased characters). -/

/-- Model of `std::lexicographical_compare` on character sequences. -/
def lexLtChars : List Char → List Char → Bool
  | _, [] => false
  | [], _ :: _ => true
  | a :: as, b :: bs =>
    if a < b then true
    else if b < a then false
    else lexLtChars as bs

/-- Model of `boost::algorithm::lexicographical_compare` on `element_t`
(the case-sensitive run comparator). -/
def lexLtB : el_comp_t := fun a b => lexLtChars a.data b.data

/-- Model of `boost::algorithm::ilexicographical_compare`: compare the
case-folded character sequences (the case-insensitive run comparator). -/
def iLexLtB : el_comp_t := fun a b =>
  lexLtChars (a.data.map Char.toLower) (b.data.map Char.toLower)

/-! ## Pattern engine (external dependency: boost regex)

The program delegates matching to `boost::regex` with flags
`match_default | match_partial`.  The engine is modelled by regular
expressions with Brzozowski derivatives.  The facts of the boost API the
tokenizer relies on, and which the model reproduces:

* `regex_match(first, last, re, default | partial)` is true iff the whole
  range `[first, last)` is a match, or is a proper prefix of some possible
  match (a *partial match*);
* `cregex_iterator` enumerates successive leftmost matches;
* a partial match (reported with `m[0].matched == false`) must reach the
  end of the searched range, must consume at least one character, and is
  reported only when no full match exists anywhere in the range — a full
  match at a later position is preferred over an earlier partial match
  (boost's matcher records `m_has_partial_match` while the search goes on
  and reports it only after the position scan failed to produce a match);
* after a zero-length match the iterator first attempts a non-empty match
  anchored at the same position, and otherwise resumes the ordinary search
  one position further on. -/

/-- Regular expressions (the dialect fragment needed for concrete runs:
empty language, empty word, single character, alternation, concatenation,
Kleene star). -/
inductive RE : Type
  | rempty : RE
  | reps : RE
  | rchar (c : Char) : RE
  | ralt (r s : RE) : RE
  | rcat (r s : RE) : RE
  | rstar (r : RE) : RE
deriving DecidableEq, Repr

/-- Does the regex accept the empty word? -/
def nullable : RE → Bool
  | .rempty => false
  | .reps => true
  | .rchar _ => false
  | .ralt r s => nullable r || nullable s
  | .rcat r s => nullable r && nullable s
  | .rstar _ => true

/-- Brzozowski derivative by one character. -/
def derivC : RE → Char → RE
  | .rempty, _ => .rempty
  | .reps, _ => .rempty
  | .rchar c, a => if a = c then .reps else .rempty
  | .ralt r s, a => .ralt (derivC r a) (derivC s a)
  | .rcat r s, a =>
    if nullable r then .ralt (.rcat (derivC r a) s) (derivC s a)
    else .rcat (derivC r a) s
  | .rstar r, a => .rcat (derivC r a) (.rstar r)

/-- Derivative by a word. -/
def derivs (r : RE) (s : List Char) : RE := s.foldl derivC r

/-- Model of `boost::regex_match(first, last, re, match_default)`:
the whole range is a match. -/
def rmatch (r : RE) (s : List Char) : Bool := nullable (derivs r s)

/-- Is the language of the regex non-empty (does any word match)? -/
def nonEmptyLang : RE → Bool
  | .rempty => false
  | .reps => true
  | .rchar _ => true
  | .ralt r s => nonEmptyLang r || nonEmptyLang s
  | .rcat r s => nonEmptyLang r && nonEmptyLang s
  | .rstar _ => true

/-- Model of `boost::regex_match(first, last, re, match_default |
match_partial)`: the range is a match or a prefix of a possible match,
i.e. some extension (possibly empty) of the range matches. -/
def pmatchB (r : RE) (s : List Char) : Bool := nonEmptyLang (derivs r s)

/-! ### The match iterator (`boost::cregex_iterator` with `match_partial`) -/

/-- One reported match: start position, length, and whether it is a full
match (`m[0].matched`); a partial match has `full = false` and always
extends to the end of the searched range. -/
structure MatchRes : Type where
  pos : Nat
  len : Nat
  full : Bool
deriving DecidableEq, Repr

/-- Length of the longest prefix of `u` matching `r` (leftmost-longest
match semantics at a fixed position), as an accumulator walk over `u`. -/
def longestFullAux : RE → List Char → Nat → Option Nat → Option Nat
  | r, [], idx, best => if nullable r then some idx else best
  | r, c :: rest, idx, best =>
    longestFullAux (derivC r c) rest (idx + 1) (if nullable r then some idx else best)

/-- Longest match length of `r` at the start of `u`, if any. -/
def longestFullAt (r : RE) (u : List Char) : Option Nat :=
  longestFullAux r u 0 none

/-- First position `≥ q` (scanning `u`, the suffix starting at `q`) that
carries a full match, together with its (longest) length. -/
def firstFullAux (r : RE) : List Char → Nat → Option (Nat × Nat)
  | u, q =>
    match longestFullAt r u with
    | some k => some (q, k)
    | none =>
      match u with
      | [] => none
      | _ :: rest => firstFullAux r rest (q + 1)

/-- First position `≥ q` at which the (non-empty) remainder of the buffer
is a full or partial match, i.e. where a match attempt runs into the end
of the buffer while still viable. -/
def firstPartialAux (r : RE) : List Char → Nat → Option Nat
  | [], _ => none
  | c :: rest, q =>
    if nonEmptyLang (derivs r (c :: rest)) then some q
    else firstPartialAux r rest (q + 1)

/-- Model of `regex_search` on `[p, s.length)` with
`match_default | match_partial`: the leftmost full match (longest at its
position) if one exists anywhere, otherwise the leftmost partial match. -/
def searchFrom (r : RE) (s : List Char) (p : Nat) : Option MatchRes :=
  match firstFullAux r (s.drop p) p with
  | some (q, k) => some ⟨q, k, true⟩
  | none =>
    match firstPartialAux r (s.drop p) p with
    | some q => some ⟨q, s.length - q, false⟩
    | none => none

/-- Longest non-empty match length of `r` at the start of `u`
(a search anchored with `match_not_null | match_continuous`). -/
def anchoredNonemptyLen (r : RE) (u : List Char) : Option Nat :=
  match u with
  | [] => none
  | c :: rest => (longestFullAux (derivC r c) rest 1 none)

/-- Model of stepping `boost::cregex_iterator`: the next match after a
match ending at `prevEnd`; after a zero-length match the iterator first
tries a non-empty (full, else partial) match anchored at the same
position and otherwise moves one position on. -/
def nextFrom (r : RE) (s : List Char) (prevEnd : Nat) (prevEmpty : Bool) :
    Option MatchRes :=
  if prevEmpty then
    match anchoredNonemptyLen r (s.drop prevEnd) with
    | some k => some ⟨prevEnd, k, true⟩
    | none =>
      if prevEnd < s.length && nonEmptyLang (derivs r (s.drop prevEnd)) then
        some ⟨prevEnd, s.length - prevEnd, false⟩
      else if prevEnd < s.length then searchFrom r s (prevEnd + 1)
      else none
  else searchFrom r s prevEnd

/-- The stream of matches the iterator reports, starting from position
`pos` (with `prevEmpty` recording whether the previous match was
zero-length), cut off by `fuel`. -/
def matchStream (r : RE) (s : List Char) : Nat → Nat → Bool → List MatchRes
  | 0, _, _ => []
  | fuel + 1, pos, prevEmpty =>
    match nextFrom r s pos prevEmpty with
    | none => []
    | some m => m :: matchStream r s fuel (m.pos + m.len) (m.len == 0)

/-! ## Streaming tokenizer (`file_to_set`, src/main.cpp lines 136–268)

The tokenizer reads the input through a growable buffer of initial size
`INITIAL_BUFFERSIZE`.  Each round it fills the buffer (`inputstream.read`
blocks until the requested count is delivered or the stream ends, so the
stream is exhausted exactly when fewer bytes than requested arrive), walks
the match iterator finalizing safe matches, and carries the unresolved
tail into the next round, doubling the buffer when nothing was resolved. -/

/-- Model of the run configuration the tokenizer reads
(`InputOptions`): comparator, empty-element flag, element regex
(`none` models an empty `boost::regex`, i.e. option `-l` absent),
separator regex, output separator and trim characters. -/
structure InputOptions : Type where
  element_comp : el_comp_t
  include_empty_elements : Bool
  input_element_regex : Option RE
  input_separator_regex : RE
  output_separator : List Char
  trim_characters : List Char

/-- Model of `boost::trim_if(el, boost::is_any_of(trim_characters))`:
strip the configured characters from both ends. -/
def trimIf (chars : List Char) (l : List Char) : List Char :=
  (((l.dropWhile (fun c => chars.contains c)).reverse.dropWhile
    (fun c => chars.contains c)).reverse)

/-- Model of the lambda `adjust_and_insert_element` (lines 151–160):
optionally filter by the element regex, trim, drop empty results unless
`include_empty_elements`, and insert into the result set. -/
def adjust_and_insert_element (opts : InputOptions) (check_element_regex : Bool)
    (result : List String) (el_str : List Char) : List String :=
  if !check_element_regex || opts.input_element_regex.isNone ||
      (match opts.input_element_regex with
       | some er => rmatch er el_str
       | none => true) then
    if !(trimIf opts.trim_characters el_str).isEmpty || opts.include_empty_elements then
      insertE opts.element_comp result (String.mk (trimIf opts.trim_characters el_str))
    else result
  else result

/-- The substring `[a, b)` of the buffer
(`element_t(buffer + a, buffer + b)`). -/
def slice (s : List Char) (a b : Nat) : List Char := (s.drop a).take (b - a)

/-- The while-condition of lines 225–229 deciding that a reported match
may be finalized: it is a full match, and either the stream is exhausted
or `regex_match(match.first, buffer_end, regex, default | partial)`
fails, i.e. the span from the match's start to the buffer's end is
neither a full nor a partial match. -/
def safeToFinalize (r : RE) (exhausted : Bool) (s : List Char) (m : MatchRes) : Bool :=
  m.full && (exhausted || !pmatchB r (s.drop m.pos))

/-- The match-processing while loop of one round (lines 223–246), driven
by the iterator state (`pos`, `prevEmpty`).  Returns the updated result
set and the final `buffer_handled_until` index: in separator mode the end
of the last finalized separator, in element mode the start of the first
unfinalized match, or the buffer end when the iterator is exhausted.
`fuel` bounds the number of iterator steps; callers pass enough for the
iterator to terminate on its own. -/
def loopGo (opts : InputOptions) (r : RE) (use_separator_regex exhausted : Bool)
    (s : List Char) :
    Nat → Nat → Bool → Nat → List String → List String × Nat
  | 0, _, _, handled, acc =>
    (acc, if use_separator_regex then handled else s.length)
  | fuel + 1, pos, prevEmpty, handled, acc =>
    match nextFrom r s pos prevEmpty with
    | none => (acc, if use_separator_regex then handled else s.length)
    | some m =>
      if safeToFinalize r exhausted s m then
        if use_separator_regex then
          loopGo opts r use_separator_regex exhausted s fuel (m.pos + m.len)
            (m.len == 0) (m.pos + m.len)
            (adjust_and_insert_element opts true acc (slice s handled m.pos))
        else
          loopGo opts r use_separator_regex exhausted s fuel (m.pos + m.len)
            (m.len == 0) handled
            (adjust_and_insert_element opts false acc (slice s m.pos (m.pos + m.len)))
      else (acc, if use_separator_regex then handled else m.pos)

/-- State carried between rounds of the read loop: current buffer
capacity (`buffersize`), the pending unresolved bytes (kept at the start
of the buffer, `used_buffer` bytes of it), and the result set so far. -/
structure TokState : Type where
  cap : Nat
  pending : List Char
  acc : List String
deriving DecidableEq, Repr

/-- One round of the do-while loop (lines 213–262): read
`buffersize - used_buffer` bytes after the pending region, process
matches, compute the new pending region, and double the buffer capacity
when the unresolved region starts at the buffer's start
(`buffer_handled_until == buffer.get()`).  Returns the new state, the
rest of the input, and whether the stream reported exhaustion. -/
def tokRound (opts : InputOptions) (st : TokState) (input : List Char) :
    TokState × List Char × Bool :=
  let want := st.cap - st.pending.length
  let chunk := input.take want
  let rest := input.drop want
  let exhausted := chunk.length < want
  let s := st.pending ++ chunk
  let use_separator_regex := opts.input_element_regex.isNone
  let r := match opts.input_element_regex with
    | some er => er
    | none => opts.input_separator_regex
  let res := loopGo opts r use_separator_regex exhausted s
    (2 * s.length + 2) 0 false 0 st.acc
  let handled := res.2
  let pending' := s.drop handled
  let cap' := if handled == 0 then 2 * st.cap else st.cap
  (⟨cap', pending', res.1⟩, rest, exhausted)

/-- The do-while read loop (`while (inputstream)`), with enough fuel for
any input: every round before exhaustion consumes at least one byte. -/
def tokLoop (opts : InputOptions) : Nat → TokState → List Char → TokState
  | 0, st, _ => st
  | fuel + 1, st, input =>
    let r := tokRound opts st input
    if r.2.2 then r.1 else tokLoop opts fuel r.1 r.2.1

/-- `INITIAL_BUFFERSIZE` of the program (the model takes the buffer size
as a parameter so that refill boundaries can be varied). -/
def INITIAL_BUFFERSIZE : Nat := 4096

/-- Model of `file_to_set` (lines 136–268): run the read loop, then, in
separator mode, turn a non-empty leftover pending region into one final
candidate element (lines 264–265). -/
def file_to_set (opts : InputOptions) (buffersize : Nat) (input : List Char) :
    List String :=
  if opts.input_element_regex.isNone &&
      decide (0 < (tokLoop opts (input.length + 1) ⟨buffersize, [], []⟩ input).pending.length) then
    adjust_and_insert_element opts true
      (tokLoop opts (input.length + 1) ⟨buffersize, [], []⟩ input).acc
      (tokLoop opts (input.length + 1) ⟨buffersize, [], []⟩ input).pending
  else (tokLoop opts (input.length + 1) ⟨buffersize, [], []⟩ input).acc

/-! ## Set algebra and queries (`execute_setop`, lines 477–594) -/

/-- All possible commutative set operations. -/
inductive SetConcat : Type
  | UNION
  | INTERSECTION
  | SYM_DIFFERENCE
deriving DecidableEq, Repr

/-- Types of different return possibilities for the program. -/
inductive SetQuery : Type
  | RETURN_SET
  | CARDINALITY
  | ISEMPTY
  | SUBSET
  | SUPERSET
  | CONTAINS_ELEMENT
  | SET_EQUALITY
deriving DecidableEq, Repr

/-- One step of the step-1 fold (lines 490–514): combine the accumulated
`output_set` with the next input set according to the chosen operation.
Union inserts every element of the new set; intersection keeps the
accumulator's elements found in the new set; symmetric difference toggles
membership of every element of the new set. -/
def apply_concat (comp : el_comp_t) :
    SetConcat → List String → List String → List String
  | .UNION, output_set, curr_set =>
    curr_set.foldl (fun acc el => insertE comp acc el) output_set
  | .INTERSECTION, output_set, curr_set =>
    output_set.foldl
      (fun intersect el =>
        if memB comp curr_set el then insertE comp intersect el else intersect)
      []
  | .SYM_DIFFERENCE, output_set, curr_set =>
    curr_set.foldl
      (fun acc el => if memB comp acc el then eraseE comp acc el else insertE comp acc el)
      output_set

/-- Step 1/3 of `execute_setop` (lines 479–516): the first input set
initializes the accumulator, every further one is combined by
`apply_concat`.  (The program starts from an empty `set_t`; with no input
source it would stay empty, though the CLI always supplies at least
`"-"`.) -/
def primary_fold (comp : el_comp_t) (op : SetConcat) :
    List (List String) → List String
  | [] => []
  | s :: rest => rest.foldl (apply_concat comp op) s

/-- Step 2/3 of `execute_setop` (lines 521–526): for each subtrahend set,
erase every one of its elements from the accumulator. -/
def subtract_fold (comp : el_comp_t) (output_set : List String)
    (diffs : List (List String)) : List String :=
  diffs.foldl (fun acc d => d.foldl (fun a el => eraseE comp a el) acc) output_set

/-- The two calculation steps of `execute_setop` on materialized sets:
the primary commutative operation, then the unconditional subtraction
pass. -/
def setop_combine (comp : el_comp_t) (op : SetConcat)
    (sets : List (List String)) (diffs : List (List String)) : List String :=
  subtract_fold comp (primary_fold comp op sets) diffs

/-- Steps 1 and 2 of `execute_setop` starting from raw input streams:
each input and each subtrahend source is parsed by `file_to_set`, then
combined. -/
def execute_setop_sets (opts : InputOptions) (buffersize : Nat) (op : SetConcat)
    (inputs subtrahends : List (List Char)) : List String :=
  setop_combine opts.element_comp op
    (inputs.map (file_to_set opts buffersize))
    (subtrahends.map (file_to_set opts buffersize))

/-! ### Query evaluation and exit codes (lines 41–47, 275–279, 529–594) -/

/-- `EXIT_SUCCESS` of `<cstdlib>`. -/
def EXIT_SUCCESS : Nat := 0

/-- `EXIT_FAILURE` of `<cstdlib>`; `print_error` returns it. -/
def EXIT_FAILURE : Nat := 1

/-- Used when a query has a negative result (e.g. element not part of the
input), but the program flow has no (other) error.  The source asserts at
preprocessing time that it differs from `EXIT_SUCCESS` and
`EXIT_FAILURE`. -/
def EXIT_QUERY_NEGATIVE : Nat := 3

/-- The lambda `answer_query` (lines 532–546): exit code of a boolean
query (output-message handling is out of scope). -/
def answer_query (success : Bool) : Nat :=
  if success then EXIT_SUCCESS else EXIT_QUERY_NEGATIVE

/-- Model of `std::all_of(set_to_check..., find in output_set)` for
`SetQuery::SUBSET` (lines 573–581): every element of the comparison set
is found in the result set. -/
def subset_query (comp : el_comp_t) (output_set set_to_check : List String) : Bool :=
  set_to_check.all (fun str => memB comp output_set str)

/-- Model of `std::all_of(output_set..., find in set_to_check)` for
`SetQuery::SUPERSET` (lines 582–590): every element of the result set is
found in the comparison set. -/
def superset_query (comp : el_comp_t) (output_set set_to_check : List String) : Bool :=
  output_set.all (fun str => memB comp set_to_check str)

/-- The data the step-3 switch consumes: the combined output set, the
comparison set loaded for `-e`/`-b`/`-p`, and the element given to
`-c`. -/
structure QueryEnv : Type where
  output_set : List String
  equal_set : List String
  subset_set : List String
  superset_set : List String
  element_to_check : String

/-- The boolean a query evaluates, when it is a boolean query (`none`
for the two unconditional queries `RETURN_SET` and `CARDINALITY`):
emptiness, trimmed-element membership, `std::set` equality (element-wise
`==` of the stored sequences), subset, superset. -/
def query_bool (opts : InputOptions) (q : SetQuery) (env : QueryEnv) : Option Bool :=
  match q with
  | .RETURN_SET => none
  | .CARDINALITY => none
  | .ISEMPTY => some env.output_set.isEmpty
  | .CONTAINS_ELEMENT =>
    some (memB opts.element_comp env.output_set
      (String.mk (trimIf opts.trim_characters env.element_to_check.data)))
  | .SET_EQUALITY => some (env.equal_set == env.output_set)
  | .SUBSET => some (subset_query opts.element_comp env.output_set env.subset_set)
  | .SUPERSET => some (superset_query opts.element_comp env.output_set env.superset_set)

/-- Step 3/3 of `execute_setop` (lines 548–594): the exit code of the
query switch; the unconditional queries return `EXIT_SUCCESS` directly,
the boolean ones go through `answer_query`. -/
def query_exit (opts : InputOptions) (q : SetQuery) (env : QueryEnv) : Nat :=
  match q with
  | .RETURN_SET => EXIT_SUCCESS
  | .CARDINALITY => EXIT_SUCCESS
  | .ISEMPTY => answer_query env.output_set.isEmpty
  | .CONTAINS_ELEMENT =>
    answer_query (memB opts.element_comp env.output_set
      (String.mk (trimIf opts.trim_characters env.element_to_check.data)))
  | .SET_EQUALITY => answer_query (env.equal_set == env.output_set)
  | .SUBSET => answer_query (subset_query opts.element_comp env.output_set env.subset_set)
  | .SUPERSET => answer_query (superset_query opts.element_comp env.output_set env.superset_set)

/-! ## Comparator properties

`std::set` requires its comparator to be a strict weak ordering; the
properties the proofs need are named here and established for the two run
comparators. -/

/-- The comparator is transitive. -/
def CompTrans (comp : el_comp_t) : Prop :=
  ∀ a b c, comp a b = true → comp b c = true → comp a c = true

/-- The comparator is irreflexive. -/
def CompIrrefl (comp : el_comp_t) : Prop :=
  ∀ a, comp a a = false

/-- Incomparability ("compares equal") is transitive. -/
def CompEquivTrans (comp : el_comp_t) : Prop :=
  ∀ a b c, equivB comp a b = true → equivB comp b c = true → equivB comp a c = true

theorem equivB_true_iff (comp : el_comp_t) (a b : String) :
    equivB comp a b = true ↔ comp a b = false ∧ comp b a = false := by
  simp [equivB]

theorem equivB_symm (comp : el_comp_t) (a b : String) :
    equivB comp a b = equivB comp b a := by
  simp [equivB, Bool.and_comm]

theorem equivB_refl {comp : el_comp_t} (hirr : CompIrrefl comp) (a : String) :
    equivB comp a a = true := by
  simp [equivB, hirr a]

theorem memB_nil (comp : el_comp_t) (x : String) : memB comp [] x = false := rfl

theorem memB_cons (comp : el_comp_t) (y : String) (t : List String) (x : String) :
    memB comp (y :: t) x = (equivB comp x y || memB comp t x) := by
  simp [memB]

theorem memB_eq_true_iff (comp : el_comp_t) (l : List String) (x : String) :
    memB comp l x = true ↔ ∃ w ∈ l, equivB comp x w = true := by
  simp [memB]

/-! ### The concrete comparators are strict weak orders -/

theorem lexLtChars_trans : ∀ as bs cs : List Char,
    lexLtChars as bs = true → lexLtChars bs cs = true → lexLtChars as cs = true := by
  intro as
  induction as with
  | nil =>
    intro bs cs h1 h2
    cases bs with
    | nil => simp [lexLtChars] at h1
    | cons b bt =>
      cases cs with
      | nil => simp [lexLtChars] at h2
      | cons c ct => simp [lexLtChars]
  | cons a tl ih =>
    intro bs cs h1 h2
    cases bs with
    | nil => simp [lexLtChars] at h1
    | cons b bt =>
      cases cs with
      | nil => simp [lexLtChars] at h2
      | cons c ct =>
        simp only [lexLtChars] at h1 h2 ⊢
        by_cases hab : a < b
        · by_cases hbc : b < c
          · have : a < c := lt_trans hab hbc
            simp [this]
          · by_cases hcb : c < b
            · simp [hbc, hcb] at h2
            · have hbc' : b = c := le_antisymm (not_lt.1 hcb) (not_lt.1 hbc)
              subst hbc'
              simp [hab]
        · by_cases hba : b < a
          · simp [hab, hba] at h1
          · have hab' : a = b := le_antisymm (not_lt.1 hba) (not_lt.1 hab)
            subst hab'
            simp [lt_irrefl] at h1
            by_cases hac : a < c
            · simp [hac]
            · by_cases hca : c < a
              · simp [hac, hca] at h2
              · simp [hac, hca] at h1 h2 ⊢
                exact ih bt ct h1 h2

theorem lexLtChars_irrefl : ∀ as : List Char, lexLtChars as as = false := by
  intro as
  induction as with
  | nil => rfl
  | cons a tl ih => simp [lexLtChars, lt_irrefl, ih]

theorem lexLtChars_eq_of_incomp : ∀ as bs : List Char,
    lexLtChars as bs = false → lexLtChars bs as = false → as = bs := by
  intro as
  induction as with
  | nil =>
    intro bs h1 _
    cases bs with
    | nil => rfl
    | cons b bt => simp [lexLtChars] at h1
  | cons a tl ih =>
    intro bs h1 h2
    cases bs with
    | nil => simp [lexLtChars] at h2
    | cons b bt =>
      simp only [lexLtChars] at h1 h2
      by_cases hab : a < b
      · simp [hab] at h1
      · by_cases hba : b < a
        · simp [hab, hba] at h1
          simp [hba] at h2
        · have hab' : a = b := le_antisymm (not_lt.1 hba) (not_lt.1 hab)
          subst hab'
          simp [lt_irrefl] at h1 h2
          rw [ih bt h1 h2]

theorem lexLtB_trans : CompTrans lexLtB := by
  intro a b c h1 h2
  exact lexLtChars_trans a.data b.data c.data h1 h2

theorem lexLtB_irrefl : CompIrrefl lexLtB := by
  intro a
  exact lexLtChars_irrefl a.data

theorem equivB_lexLtB_iff (a b : String) : equivB lexLtB a b = true ↔ a = b := by
  rw [equivB_true_iff]
  constructor
  · rintro ⟨h1, h2⟩
    have := lexLtChars_eq_of_incomp a.data b.data h1 h2
    exact String.ext this
  · rintro rfl
    exact ⟨lexLtChars_irrefl a.data, lexLtChars_irrefl a.data⟩

theorem lexLtB_equivTrans : CompEquivTrans lexLtB := by
  intro a b c h1 h2
  rw [equivB_lexLtB_iff] at h1 h2 ⊢
  exact h1.trans h2

theorem iLexLtB_trans : CompTrans iLexLtB := by
  intro a b c h1 h2
  exact lexLtChars_trans _ _ _ h1 h2

theorem iLexLtB_irrefl : CompIrrefl iLexLtB := by
  intro a
  exact lexLtChars_irrefl _

theorem equivB_iLexLtB_iff (a b : String) :
    equivB iLexLtB a b = true ↔ a.data.map Char.toLower = b.data.map Char.toLower := by
  rw [equivB_true_iff]
  constructor
  · rintro ⟨h1, h2⟩
    exact lexLtChars_eq_of_incomp _ _ h1 h2
  · intro h
    unfold iLexLtB
    rw [h]
    exact ⟨lexLtChars_irrefl _, lexLtChars_irrefl _⟩

theorem iLexLtB_equivTrans : CompEquivTrans iLexLtB := by
  intro a b c h1 h2
  rw [equivB_iLexLtB_iff] at h1 h2 ⊢
  exact h1.trans h2

/-! ## Invariant and membership lemmas for the set operations -/

theorem setInv_iff_pairwise (comp : el_comp_t) (htrans : CompTrans comp)
    (l : List String) :
    SetInv comp l ↔ List.Pairwise (fun a b => comp a b = true) l := by
  haveI : IsTrans String (fun a b => comp a b = true) := ⟨htrans⟩
  exact List.chain'_iff_pairwise

theorem setInv_head_lt {comp : el_comp_t} (htrans : CompTrans comp)
    {y : String} {t : List String} (h : SetInv comp (y :: t)) :
    ∀ w ∈ t, comp y w = true := by
  have hp := (setInv_iff_pairwise comp htrans _).1 h
  exact (List.pairwise_cons.1 hp).1

theorem setInv_tail {comp : el_comp_t} {y : String} {t : List String}
    (h : SetInv comp (y :: t)) : SetInv comp t :=
  (List.chain'_cons'.1 h).2

/-- If `y` is equivalent to a tail element of an invariant set, it is not
equivalent to the head. -/
theorem memB_tail_not_equiv_head {comp : el_comp_t} (htrans : CompTrans comp)
    (hequiv : CompEquivTrans comp) {y z : String} {t : List String}
    (hinv : SetInv comp (z :: t)) (hmem : memB comp t y = true) :
    equivB comp y z = false := by
  by_contra hne
  have hyz : equivB comp y z = true := by
    cases h : equivB comp y z
    · exact absurd h hne
    · rfl
  obtain ⟨w, hw, hyw⟩ := (memB_eq_true_iff comp t y).1 hmem
  have hzw : equivB comp z w = true := by
    have hzy : equivB comp z y = true := by rw [equivB_symm]; exact hyz
    exact hequiv z y w hzy hyw
  have hlt : comp z w = true := setInv_head_lt htrans hinv w hw
  rw [equivB_true_iff] at hzw
  rw [hzw.1] at hlt
  exact Bool.false_ne_true hlt

theorem insertE_head_cases (comp : el_comp_t) (x : String) (l : List String) :
    (insertE comp l x).head? = some x ∨ (insertE comp l x).head? = l.head? := by
  cases l with
  | nil => left; rfl
  | cons y t =>
    by_cases h1 : comp x y = true
    · left; simp [insertE, h1]
    · by_cases h2 : comp y x = true
      · right; simp [insertE, h1, h2]
      · right; simp [insertE, h1, h2]

theorem SetInv_insertE (comp : el_comp_t) (x : String) :
    ∀ {l : List String}, SetInv comp l → SetInv comp (insertE comp l x) := by
  intro l
  induction l with
  | nil => intro _; exact List.chain'_singleton x
  | cons y t ih =>
    intro h
    have ht : SetInv comp t := setInv_tail h
    by_cases h1 : comp x y = true
    · show SetInv comp (if comp x y then _ else _)
      rw [if_pos h1]
      exact List.chain'_cons.2 ⟨h1, h⟩
    · by_cases h2 : comp y x = true
      · show SetInv comp (if comp x y then _ else _)
        rw [if_neg h1, if_pos h2]
        refine List.chain'_cons'.2 ⟨?_, ih ht⟩
        intro z hz
        rcases insertE_head_cases comp x t with hc | hc
        · rw [hc] at hz
          cases hz
          exact h2
        · rw [hc] at hz
          cases t with
          | nil => cases hz
          | cons w t' =>
            cases hz
            exact (List.chain'_cons.1 h).1
      · show SetInv comp (if comp x y then _ else _)
        rw [if_neg h1, if_neg h2]
        exact h

theorem insertE_eq_of_memB {comp : el_comp_t} (htrans : CompTrans comp)
    {x : String} :
    ∀ {l : List String}, SetInv comp l → memB comp l x = true →
      insertE comp l x = l := by
  intro l
  induction l with
  | nil => intro _ hm; simp [memB] at hm
  | cons y t ih =>
    intro hinv hm
    rw [memB_cons] at hm
    rcases Bool.or_eq_true_iff.1 hm with hxy | hmt
    · rw [equivB_true_iff] at hxy
      show (if comp x y then _ else _) = _
      rw [if_neg (by simp [hxy.1]), if_neg (by simp [hxy.2])]
    · obtain ⟨w, hw, hxw⟩ := (memB_eq_true_iff comp t x).1 hmt
      have hyw : comp y w = true := setInv_head_lt htrans hinv w hw
      have hxy : comp x y = false := by
        cases hc : comp x y
        · rfl
        · have hxw' : comp x w = true := htrans x y w hc hyw
          rw [equivB_true_iff] at hxw
          rw [hxw.1] at hxw'
          exact absurd hxw' (by simp)
      cases hyx : comp y x
      · show (if comp x y then _ else _) = _
        rw [if_neg (by simp [hxy]), if_neg (by simp [hyx])]
      · show (if comp x y then _ else _) = _
        rw [if_neg (by simp [hxy]), if_pos hyx, ih (setInv_tail hinv) hmt]

theorem memB_insertE {comp : el_comp_t} (hequiv : CompEquivTrans comp)
    (x y : String) :
    ∀ l : List String,
      memB comp (insertE comp l x) y = (memB comp l y || equivB comp x y) := by
  intro l
  induction l with
  | nil => simp [insertE, memB_cons, memB_nil, equivB_symm comp y x]
  | cons z t ih =>
    by_cases h1 : comp x z = true
    · show memB comp (if comp x z then _ else _) y = _
      rw [if_pos h1]
      rw [memB_cons, memB_cons, equivB_symm comp y x]
      cases equivB comp x y <;> cases equivB comp y z <;> simp
    · by_cases h2 : comp z x = true
      · show memB comp (if comp x z then _ else _) y = _
        rw [if_neg h1, if_pos h2]
        rw [memB_cons, memB_cons, ih]
        cases equivB comp y z <;> simp
      · show memB comp (if comp x z then _ else _) y = _
        rw [if_neg h1, if_neg h2]
        have hxz : equivB comp x z = true := by
          rw [equivB_true_iff]
          exact ⟨by simpa using h1, by simpa using h2⟩
        cases hxy : equivB comp x y
        · simp
        · have hyz : equivB comp y z = true := by
            have hyx : equivB comp y x = true := by
              rw [equivB_symm]; exact hxy
            exact hequiv y x z hyx hxz
          rw [memB_cons, hyz]
          simp

theorem eraseE_sublist (comp : el_comp_t) (x : String) :
    ∀ l : List String, (eraseE comp l x).Sublist l := by
  intro l
  induction l with
  | nil => simp [eraseE]
  | cons y t ih =>
    simp only [eraseE]
    by_cases h : equivB comp x y = true
    · rw [if_pos h]
      exact List.sublist_cons_self y t
    · rw [if_neg h]
      exact ih.cons₂ y

theorem SetInv_eraseE {comp : el_comp_t} (htrans : CompTrans comp)
    (x : String) {l : List String} (hinv : SetInv comp l) :
    SetInv comp (eraseE comp l x) := by
  rw [setInv_iff_pairwise comp htrans] at hinv ⊢
  exact hinv.sublist (eraseE_sublist comp x l)

theorem memB_eraseE {comp : el_comp_t} (htrans : CompTrans comp)
    (hequiv : CompEquivTrans comp) (x y : String) :
    ∀ {l : List String}, SetInv comp l →
      memB comp (eraseE comp l x) y = (memB comp l y && !equivB comp x y) := by
  intro l
  induction l with
  | nil => intro _; simp [eraseE, memB_nil]
  | cons z t ih =>
    intro hinv
    by_cases hxz : equivB comp x z = true
    · show memB comp (if equivB comp x z then _ else _) y = _
      rw [if_pos hxz]
      cases hxy : equivB comp x y
      · -- x not equivalent to y: y is not equivalent to z either
        have hyz : equivB comp y z = false := by
          cases hc : equivB comp y z
          · rfl
          · have : equivB comp x y = true := by
              have hzy : equivB comp z y = true := by rw [equivB_symm]; exact hc
              exact hequiv x z y hxz hzy
            rw [this] at hxy
            exact absurd hxy (by simp)
        rw [memB_cons, hyz]
        simp
      · -- x equivalent to y: y equivalent to z, hence not in the tail
        have hyz : equivB comp y z = true := by
          have hyx : equivB comp y x = true := by rw [equivB_symm]; exact hxy
          exact hequiv y x z hyx hxz
        have hmt : memB comp t y = false := by
          cases hc : memB comp t y
          · rfl
          · have := memB_tail_not_equiv_head htrans hequiv hinv hc
            rw [this] at hyz
            exact absurd hyz (by simp)
        rw [hmt]
        simp
    · show memB comp (if equivB comp x z then _ else _) y = _
      rw [if_neg hxz]
      rw [memB_cons, memB_cons, ih (setInv_tail hinv)]
      cases hyz : equivB comp y z
      · simp
      · have hxy : equivB comp x y = false := by
          cases hc : equivB comp x y
          · rfl
          · have : equivB comp x z = true := hequiv x y z hc hyz
            exact absurd this (by simpa using hxz)
        rw [hxy]
        simp

theorem memB_of_equiv {comp : el_comp_t} (hequiv : CompEquivTrans comp)
    {a b : String} (hab : equivB comp a b = true) {l : List String}
    (hmem : memB comp l b = true) : memB comp l a = true := by
  obtain ⟨w, hw, hbw⟩ := (memB_eq_true_iff comp l b).1 hmem
  exact (memB_eq_true_iff comp l a).2 ⟨w, hw, hequiv a b w hab hbw⟩

/-- Membership after the symmetric-difference toggle of one element
(lines 506–513): toggled exactly on the equivalence class of `x`. -/
theorem memB_toggle {comp : el_comp_t} (htrans : CompTrans comp)
    (hequiv : CompEquivTrans comp) (x y : String) {acc : List String}
    (hinv : SetInv comp acc) :
    memB comp
      (if memB comp acc x then eraseE comp acc x else insertE comp acc x) y
      = xor (memB comp acc y) (equivB comp x y) := by
  by_cases hm' : memB comp acc x = true
  case neg =>
    have hm : memB comp acc x = false := by simpa using hm'
    rw [if_neg hm', memB_insertE hequiv]
    cases hxy : equivB comp x y
    · simp
    · have hmy : memB comp acc y = false := by
        cases hc : memB comp acc y
        · rfl
        · have hx : memB comp acc x = true := memB_of_equiv hequiv hxy hc
          rw [hx] at hm
          exact absurd hm (by simp)
      rw [hmy]
      simp
  case pos =>
    rw [if_pos hm', memB_eraseE htrans hequiv x y hinv]
    cases hxy : equivB comp x y
    · simp
    · have hmy : memB comp acc y = true := by
        have hyx : equivB comp y x = true := by rw [equivB_symm]; exact hxy
        exact memB_of_equiv hequiv hyx hm'
      rw [hmy]
      simp

theorem SetInv_toggle {comp : el_comp_t} (htrans : CompTrans comp)
    (x : String) {acc : List String} (hinv : SetInv comp acc) :
    SetInv comp
      (if memB comp acc x then eraseE comp acc x else insertE comp acc x) := by
  by_cases hm : memB comp acc x = true
  · rw [if_pos hm]
    exact SetInv_eraseE htrans x hinv
  · rw [if_neg hm]
    exact SetInv_insertE comp x hinv

theorem SetInv_symfold {comp : el_comp_t} (htrans : CompTrans comp) :
    ∀ (cur acc : List String), SetInv comp acc →
      SetInv comp
        (cur.foldl
          (fun a el => if memB comp a el then eraseE comp a el else insertE comp a el)
          acc) := by
  intro cur
  induction cur with
  | nil => intro acc h; exact h
  | cons c t ih =>
    intro acc h
    exact ih _ (SetInv_toggle htrans c h)

/-- Membership in the symmetric-difference fold of one further set:
an exclusive or of the memberships. -/
theorem memB_symfold {comp : el_comp_t} (htrans : CompTrans comp)
    (hequiv : CompEquivTrans comp) (y : String) :
    ∀ (cur acc : List String), SetInv comp acc → SetInv comp cur →
      memB comp
        (cur.foldl
          (fun a el => if memB comp a el then eraseE comp a el else insertE comp a el)
          acc) y
        = xor (memB comp acc y) (memB comp cur y) := by
  intro cur
  induction cur with
  | nil => intro acc _ _; simp [memB_nil]
  | cons c t ih =>
    intro acc hacc hcur
    have step := ih (if memB comp acc c then eraseE comp acc c else insertE comp acc c)
      (SetInv_toggle htrans c hacc) (setInv_tail hcur)
    rw [List.foldl_cons, step, memB_toggle htrans hequiv c y hacc, memB_cons]
    cases hyc : equivB comp y c
    · have hcy : equivB comp c y = false := by rw [equivB_symm]; exact hyc
      rw [hcy]
      cases memB comp acc y <;> cases memB comp t y <;> simp
    · have hcy : equivB comp c y = true := by rw [equivB_symm]; exact hyc
      have hty : memB comp t y = false := by
        cases hc : memB comp t y
        · rfl
        · have := memB_tail_not_equiv_head htrans hequiv hcur hc
          rw [this] at hyc
          exact absurd hyc (by simp)
      rw [hcy, hty]
      cases memB comp acc y <;> simp

theorem SetInv_foldl_insertE (comp : el_comp_t) :
    ∀ (cur acc : List String), SetInv comp acc →
      SetInv comp (cur.foldl (fun acc el => insertE comp acc el) acc) := by
  intro cur
  induction cur with
  | nil => intro acc h; exact h
  | cons c t ih =>
    intro acc h
    exact ih _ (SetInv_insertE comp c h)

theorem SetInv_foldl_eraseE {comp : el_comp_t} (htrans : CompTrans comp) :
    ∀ (d acc : List String), SetInv comp acc →
      SetInv comp (d.foldl (fun a el => eraseE comp a el) acc) := by
  intro d
  induction d with
  | nil => intro acc h; exact h
  | cons e t ih =>
    intro acc h
    exact ih _ (SetInv_eraseE htrans e h)

theorem SetInv_apply_concat {comp : el_comp_t} (htrans : CompTrans comp)
    (op : SetConcat) (acc cur : List String) (hacc : SetInv comp acc) :
    SetInv comp (apply_concat comp op acc cur) := by
  cases op with
  | UNION => exact SetInv_foldl_insertE comp cur acc hacc
  | INTERSECTION =>
    show SetInv comp (acc.foldl _ [])
    have : ∀ (l i : List String), SetInv comp i →
        SetInv comp
          (l.foldl
            (fun intersect el =>
              if memB comp cur el then insertE comp intersect el else intersect)
            i) := by
      intro l
      induction l with
      | nil => intro i h; exact h
      | cons e t ih =>
        intro i h
        by_cases hm : memB comp cur e = true
        · simp only [List.foldl_cons, if_pos hm]
          exact ih _ (SetInv_insertE comp e h)
        · simp only [List.foldl_cons, if_neg hm]
          exact ih _ h
    exact this acc [] List.chain'_nil
  | SYM_DIFFERENCE => exact SetInv_symfold htrans cur acc hacc

theorem SetInv_primary_fold {comp : el_comp_t} (htrans : CompTrans comp)
    (op : SetConcat) :
    ∀ sets : List (List String), (∀ s ∈ sets, SetInv comp s) →
      SetInv comp (primary_fold comp op sets) := by
  intro sets
  cases sets with
  | nil => intro _; exact List.chain'_nil
  | cons s rest =>
    intro hall
    show SetInv comp (rest.foldl (apply_concat comp op) s)
    have hs : SetInv comp s := hall s (by simp)
    clear hall
    induction rest generalizing s with
    | nil => exact hs
    | cons r t ih =>
      exact ih _ (SetInv_apply_concat htrans op s r hs)

theorem SetInv_subtract_fold {comp : el_comp_t} (htrans : CompTrans comp)
    (diffs : List (List String)) :
    ∀ acc : List String, SetInv comp acc →
      SetInv comp (subtract_fold comp acc diffs) := by
  induction diffs with
  | nil => intro acc h; exact h
  | cons d t ih =>
    intro acc h
    exact ih _ (SetInv_foldl_eraseE htrans d acc h)

theorem SetInv_adjust (opts : InputOptions) (chk : Bool) (el : List Char)
    {acc : List String} (hacc : SetInv opts.element_comp acc) :
    SetInv opts.element_comp (adjust_and_insert_element opts chk acc el) := by
  unfold adjust_and_insert_element
  split
  · split
    · exact SetInv_insertE _ _ hacc
    · exact hacc
  · exact hacc

theorem SetInv_loopGo (opts : InputOptions) (r : RE) (usep exh : Bool)
    (s : List Char) :
    ∀ (fuel pos : Nat) (pe : Bool) (h : Nat) (acc : List String),
      SetInv opts.element_comp acc →
      SetInv opts.element_comp (loopGo opts r usep exh s fuel pos pe h acc).1 := by
  intro fuel
  induction fuel with
  | zero => intro pos pe h acc hacc; exact hacc
  | succ n ih =>
    intro pos pe h acc hacc
    rw [loopGo]
    split
    · exact hacc
    · split
      · split
        · exact ih _ _ _ _ (SetInv_adjust opts true _ hacc)
        · exact ih _ _ _ _ (SetInv_adjust opts false _ hacc)
      · exact hacc

theorem SetInv_tokRound (opts : InputOptions) (st : TokState)
    (input : List Char) (hacc : SetInv opts.element_comp st.acc) :
    SetInv opts.element_comp (tokRound opts st input).1.acc := by
  unfold tokRound
  exact SetInv_loopGo opts _ _ _ _ _ _ _ _ _ hacc

theorem SetInv_tokLoop (opts : InputOptions) :
    ∀ (fuel : Nat) (st : TokState) (input : List Char),
      SetInv opts.element_comp st.acc →
      SetInv opts.element_comp (tokLoop opts fuel st input).acc := by
  intro fuel
  induction fuel with
  | zero => intro st input h; exact h
  | succ n ih =>
    intro st input h
    show SetInv opts.element_comp (tokLoop opts (n + 1) st input).acc
    rw [tokLoop]
    by_cases hc : (tokRound opts st input).2.2 = true
    · rw [if_pos hc]
      exact SetInv_tokRound opts st input h
    · rw [if_neg hc]
      exact ih _ _ (SetInv_tokRound opts st input h)

/-- Every set a Set Builder produces satisfies the `std::set` invariant
(it is built from the empty set by `insertE` alone). -/
theorem SetInv_file_to_set (opts : InputOptions) (buffersize : Nat)
    (input : List Char) :
    SetInv opts.element_comp (file_to_set opts buffersize input) := by
  unfold file_to_set
  have hloop := SetInv_tokLoop opts (input.length + 1) ⟨buffersize, [], []⟩ input
    List.chain'_nil
  split
  · exact SetInv_adjust opts true _ hloop
  · exact hloop

theorem memB_of_mem {comp : el_comp_t} (hirr : CompIrrefl comp) {x : String}
    {l : List String} (hx : x ∈ l) : memB comp l x = true :=
  (memB_eq_true_iff comp l x).2 ⟨x, hx, equivB_refl hirr x⟩

theorem eq_nil_of_no_memB {comp : el_comp_t} (hirr : CompIrrefl comp)
    {l : List String} (h : ∀ y, memB comp l y = false) : l = [] := by
  cases l with
  | nil => rfl
  | cons z t =>
    have hz := h z
    rw [memB_cons, equivB_refl hirr z] at hz
    simp at hz

theorem foldl_insertE_self {comp : el_comp_t} (htrans : CompTrans comp)
    {S : List String} (hS : SetInv comp S) :
    ∀ l : List String, (∀ x ∈ l, memB comp S x = true) →
      l.foldl (fun acc el => insertE comp acc el) S = S := by
  intro l
  induction l with
  | nil => intro _; rfl
  | cons c t ih =>
    intro hall
    rw [List.foldl_cons, insertE_eq_of_memB htrans hS (hall c (by simp))]
    exact ih (fun x hx => hall x (by simp [hx]))

/-- Membership after erasing every element of one subtrahend set
(lines 524–525). -/
theorem memB_foldl_eraseE {comp : el_comp_t} (htrans : CompTrans comp)
    (hequiv : CompEquivTrans comp) (y : String) :
    ∀ (d acc : List String), SetInv comp acc →
      memB comp (d.foldl (fun a el => eraseE comp a el) acc) y
        = (memB comp acc y && !memB comp d y) := by
  intro d
  induction d with
  | nil => intro acc _; simp [memB_nil]
  | cons e t ih =>
    intro acc hacc
    rw [List.foldl_cons, ih _ (SetInv_eraseE htrans e hacc),
      memB_eraseE htrans hequiv e y hacc, memB_cons, equivB_symm comp y e]
    cases equivB comp e y <;> cases memB comp acc y <;> cases memB comp t y <;> simp

/-- Membership after the whole subtraction pass. -/
theorem memB_subtract_fold {comp : el_comp_t} (htrans : CompTrans comp)
    (hequiv : CompEquivTrans comp) (y : String) :
    ∀ (diffs : List (List String)) (acc : List String), SetInv comp acc →
      memB comp (subtract_fold comp acc diffs) y
        = (memB comp acc y && diffs.all (fun d => !memB comp d y)) := by
  intro diffs
  induction diffs with
  | nil => intro acc _; simp [subtract_fold]
  | cons d t ih =>
    intro acc hacc
    show memB comp (subtract_fold comp _ t) y = _
    rw [ih _ (SetInv_foldl_eraseE htrans d acc hacc),
      memB_foldl_eraseE htrans hequiv y d acc hacc]
    rw [List.all_cons]
    cases memB comp acc y <;> cases memB comp d y <;> simp

/-- Membership in the symmetric-difference fold over all sources:
an element is in iff it is in an odd number of the sources. -/
theorem memB_primary_sym {comp : el_comp_t} (htrans : CompTrans comp)
    (hequiv : CompEquivTrans comp) (y : String) :
    ∀ (rest : List (List String)) (s0 : List String), SetInv comp s0 →
      (∀ s ∈ rest, SetInv comp s) →
      memB comp (primary_fold comp SetConcat.SYM_DIFFERENCE (s0 :: rest)) y
        = ((s0 :: rest).countP (fun s => memB comp s y) % 2 == 1) := by
  intro rest
  induction rest with
  | nil =>
    intro s0 _ _
    show memB comp s0 y = _
    rw [List.countP_cons, List.countP_nil]
    cases memB comp s0 y <;> simp
  | cons r t ih =>
    intro s0 hs0 hrest
    have hr : SetInv comp r := hrest r (by simp)
    have ht : ∀ s ∈ t, SetInv comp s := fun s hs => hrest s (by simp [hs])
    have hs0' : SetInv comp (apply_concat comp SetConcat.SYM_DIFFERENCE s0 r) :=
      SetInv_apply_concat htrans _ s0 r hs0
    have hstep := ih (apply_concat comp SetConcat.SYM_DIFFERENCE s0 r) hs0' ht
    show memB comp
      (primary_fold comp SetConcat.SYM_DIFFERENCE
        (apply_concat comp SetConcat.SYM_DIFFERENCE s0 r :: t)) y = _
    rw [hstep]
    have hx : memB comp (apply_concat comp SetConcat.SYM_DIFFERENCE s0 r) y
        = xor (memB comp s0 y) (memB comp r y) :=
      memB_symfold htrans hequiv y r s0 hs0 hr
    rw [List.countP_cons, List.countP_cons, List.countP_cons, hx]
    cases memB comp s0 y <;> cases memB comp r y <;> (simp; all_goals omega)

/-! ## Characterization of one tokenizer round

The while loop finalizes exactly the longest prefix of the iterator's
match stream on which `safeToFinalize` holds. -/

/-- The matches a round finalizes: the longest prefix of the match stream
every member of which passes the safety test. -/
def finalizable (r : RE) (exh : Bool) (s : List Char) (ms : List MatchRes) :
    List MatchRes :=
  ms.takeWhile (fun m => safeToFinalize r exh s m)

/-- The candidate elements of separator mode: the runs of text between
`buffer_handled_until` and each finalized separator match. -/
def sep_elements (s : List Char) : Nat → List MatchRes → List (List Char)
  | _, [] => []
  | h, m :: rest => slice s h m.pos :: sep_elements s (m.pos + m.len) rest

/-- The final `buffer_handled_until` of separator mode: the end of the
last finalized separator match (or the initial value with no match). -/
def sep_handled (h : Nat) (ms : List MatchRes) : Nat :=
  ms.foldl (fun _ m => m.pos + m.len) h

/-- The final `buffer_handled_until` of element mode: the start of the
first unfinalized match, or the buffer end when the iterator finished. -/
def elem_handled (s : List Char) (ms fin : List MatchRes) : Nat :=
  match (ms.drop fin.length).head? with
  | some m => m.pos
  | none => s.length

/-- C2 (amended): in every tokenizer round, a pattern match is finalized
into an element if and only if it is a full (non-partial) match and
either (a) the stream has been exhausted, or (b) the span from the
match's start to the current buffer's end is neither a full nor a partial
match of the pattern (the code's test
`!regex_match(match.first, buffer_end, regex, default | partial)`; this
implies, but is stronger than, the match's end not touching the buffer's
end); match processing stops at the first match failing this test or
when matches are exhausted.  Formally: the while loop of lines 223–246
finalizes exactly the prefix `finalizable` (the `takeWhile` of
`safeToFinalize`) of the iterator's match stream, builds the candidate
elements of exactly those matches, and leaves `buffer_handled_until` at
the first unfinalized position. -/
theorem C2_round_finalization (opts : InputOptions) (r : RE)
    (usep exh : Bool) (s : List Char) :
    ∀ (fuel pos : Nat) (pe : Bool) (h : Nat) (acc : List String),
      loopGo opts r usep exh s fuel pos pe h acc =
        ((if usep then
            sep_elements s h (finalizable r exh s (matchStream r s fuel pos pe))
          else
            (finalizable r exh s (matchStream r s fuel pos pe)).map
              (fun m => slice s m.pos (m.pos + m.len))).foldl
          (fun a e => adjust_and_insert_element opts usep a e) acc,
         if usep then
           sep_handled h (finalizable r exh s (matchStream r s fuel pos pe))
         else
           elem_handled s (matchStream r s fuel pos pe)
             (finalizable r exh s (matchStream r s fuel pos pe))) := by
  intro fuel
  induction fuel with
  | zero =>
    intro pos pe h acc
    cases usep <;>
      simp [loopGo, matchStream, finalizable, sep_elements, sep_handled, elem_handled]
  | succ n ih =>
    intro pos pe h acc
    rw [loopGo, matchStream]
    cases hnext : nextFrom r s pos pe with
    | none =>
      cases usep <;>
        simp [finalizable, sep_elements, sep_handled, elem_handled]
    | some m =>
      dsimp only
      by_cases hsafe : safeToFinalize r exh s m = true
      · rw [if_pos hsafe]
        have hfin : finalizable r exh s (m :: matchStream r s n (m.pos + m.len) (m.len == 0))
            = m :: finalizable r exh s (matchStream r s n (m.pos + m.len) (m.len == 0)) := by
          simp [finalizable, List.takeWhile_cons, hsafe]
        rw [hfin]
        cases usep with
        | true =>
          simp only [if_true]
          rw [ih (m.pos + m.len) (m.len == 0) (m.pos + m.len)
            (adjust_and_insert_element opts true acc (slice s h m.pos))]
          simp [sep_elements, sep_handled]
        | false =>
          simp only [Bool.false_eq_true, if_false]
          rw [ih (m.pos + m.len) (m.len == 0) h
            (adjust_and_insert_element opts false acc (slice s m.pos (m.pos + m.len)))]
          simp only [Bool.false_eq_true, if_false, List.map_cons, List.foldl_cons]
          simp [elem_handled, finalizable]
      · rw [if_neg hsafe]
        have hfin : finalizable r exh s (m :: matchStream r s n (m.pos + m.len) (m.len == 0))
            = [] := by
          simp only [finalizable, List.takeWhile_cons]
          rw [if_neg hsafe]
        rw [hfin]
        cases usep with
        | true => simp [sep_elements, sep_handled]
        | false => simp [elem_handled]

/-! ## Concrete run configurations used by the claim instances -/

/-- The element regex `abc|b`. -/
def reABCB : RE :=
  RE.ralt (RE.rcat (RE.rchar 'a') (RE.rcat (RE.rchar 'b') (RE.rchar 'c')))
    (RE.rchar 'b')

/-- The regex `aa|aaab`. -/
def reAAAB : RE :=
  RE.ralt (RE.rcat (RE.rchar 'a') (RE.rchar 'a'))
    (RE.rcat (RE.rchar 'a')
      (RE.rcat (RE.rchar 'a') (RE.rcat (RE.rchar 'a') (RE.rchar 'b'))))

/-- Element-pattern-mode options (`--input-element`) with the given
element regex, case-sensitive comparison and no trimming. -/
def elemOpts (r : RE) : InputOptions :=
  { element_comp := lexLtB
    include_empty_elements := false
    input_element_regex := some r
    input_separator_regex := RE.rchar '\n'
    output_separator := ['\n']
    trim_characters := [] }

/-- Default separator-mode options (newline separator regex, as installed
when neither `-n` nor `-l` is given), with the `--include-empty` flag as
given. -/
def sepOpts (incl : Bool) : InputOptions :=
  { element_comp := lexLtB
    include_empty_elements := incl
    input_element_regex := none
    input_separator_regex := RE.rchar '\n'
    output_separator := ['\n']
    trim_characters := [] }

/-! ## The claims -/

/-- C1: evaluation of the tokenizer at a failing input for
buffer-boundary independence.  With the element pattern `abc|b` over the
bytes `"abc"`, a run whose buffer refills after 2 bytes produces the
ElementSet `{"b"}`: in the first round the buffer holds `"ab"`, the
engine reports the full match `"b"` at offset 1 (a full match is
preferred over the partial match of `"ab"` at offset 0), the safety test
defers it, and `buffer_handled_until` jumps to offset 1, discarding the
byte `'a'` that the one-pass run still uses.  A single-pass run (buffer
larger than the whole input) produces `{"abc"}`.  The two ElementSets
differ, refuting boundary independence for this TokenizerConfig. -/
theorem C1_boundary_dependence_eval :
    file_to_set (elemOpts reABCB) 2 ['a', 'b', 'c'] = ["b"] ∧
    file_to_set (elemOpts reABCB) 5 ['a', 'b', 'c'] = ["abc"] ∧
    file_to_set (elemOpts reABCB) 2 ['a', 'b', 'c'] ≠
      file_to_set (elemOpts reABCB) 5 ['a', 'b', 'c'] := by
  refine ⟨by decide, by decide, by decide⟩

/-- C2 counterexample: a round on the buffer `"aaa"` with pattern
`aa|aaab` and the stream not exhausted.  The iterator's first (and only
full) match is `[0, 2)`: a full match whose end `2` does not touch the
buffer end `3`, so the claim's condition (b) holds and the claim predicts
the match is finalized.  The code instead evaluates
`regex_match("aaa", default | partial)`, which succeeds (a partial match
of `aaab`), judges the match unsafe, finalizes nothing and leaves
`buffer_handled_until` at the match's start. -/
theorem C2_claim_counterexample :
    (matchStream reAAAB ['a', 'a', 'a'] 8 0 false).head?
        = some ⟨0, 2, true⟩ ∧
    (2 : Nat) < 3 ∧
    pmatchB reAAAB ['a', 'a', 'a'] = true ∧
    (loopGo (elemOpts reAAAB) reAAAB false false ['a', 'a', 'a'] 8 0 false 0 []).1
        = [] ∧
    (loopGo (elemOpts reAAAB) reAAAB false false ['a', 'a', 'a'] 8 0 false 0 []).2
        = 0 := by
  refine ⟨by decide, by decide, by decide, by decide, by decide⟩

theorem growth_aux (cap H : Nat) (s : List Char) (hcap : 0 < cap)
    (hs : s ≠ []) :
    ((if H == 0 then 2 * cap else cap) = 2 * cap ↔ s.drop H = s) ∧
    ((if H == 0 then 2 * cap else cap) ≠ 2 * cap →
      (if H == 0 then 2 * cap else cap) = cap) ∧
    s.drop H <:+ s := by
  have hslen : 0 < s.length := List.length_pos.2 hs
  refine ⟨⟨?_, ?_⟩, ?_, List.drop_suffix H s⟩
  · intro hc
    have hH : H = 0 := by
      by_contra hne
      rw [if_neg (by simpa using hne)] at hc
      omega
    rw [hH]
    rfl
  · intro hd
    have hH : H = 0 := by
      have hlen := congrArg List.length hd
      rw [List.length_drop] at hlen
      omega
    rw [if_pos (by simpa using hH)]
  · intro hne
    by_cases hH : H = 0
    · rw [if_pos (by simpa using hH)] at hne ⊢
      exact absurd rfl hne
    · rw [if_neg (by simpa using hH)]

/-- C3: for every round that the stream survives (a next read will
happen), the buffer capacity is doubled if and only if the pending
(unresolved) region spans the entire current buffer
(`buffer_handled_until == buffer.get()`, lines 249–256); otherwise the
capacity is unchanged and the pending bytes are compacted to the buffer's
start (lines 257–261).  In both cases the pending bytes are preserved
verbatim: they are a suffix of the round's buffer content. -/
theorem C3_buffer_growth (opts : InputOptions) (st : TokState)
    (input : List Char) (hcap : 0 < st.cap)
    (hexh : (tokRound opts st input).2.2 = false) :
    ((tokRound opts st input).1.cap = 2 * st.cap ↔
      (tokRound opts st input).1.pending
        = st.pending ++ input.take (st.cap - st.pending.length)) ∧
    ((tokRound opts st input).1.cap ≠ 2 * st.cap →
      (tokRound opts st input).1.cap = st.cap) ∧
    (tokRound opts st input).1.pending
      <:+ st.pending ++ input.take (st.cap - st.pending.length) := by
  have hchunk : ¬ ((input.take (st.cap - st.pending.length)).length
      < st.cap - st.pending.length) := by
    have hx : decide ((input.take (st.cap - st.pending.length)).length
        < st.cap - st.pending.length) = false := hexh
    exact of_decide_eq_false hx
  have hs : st.pending ++ input.take (st.cap - st.pending.length) ≠ [] := by
    intro hemp
    rcases List.append_eq_nil.1 hemp with ⟨hp, ht⟩
    rw [hp] at hchunk ht
    simp only [List.length_nil, Nat.sub_zero] at hchunk ht
    rw [ht] at hchunk
    simp only [List.length_nil] at hchunk
    exact hchunk (by omega)
  exact growth_aux st.cap _ _ hcap hs

/-- C4: for every run configuration whose comparator is transitive (as
both installed comparators are), every ElementSet produced — by the Set
Builder `file_to_set`, by the set-algebra fold `primary_fold`, or as the
final result of `execute_setop_sets` — is pairwise strictly increasing
under the active comparator: iterating visits elements in the
comparator's sort order, and no two stored elements compare equal
(`equivB` is false for every pair). -/
theorem C4_elementset_invariant (opts : InputOptions)
    (htrans : CompTrans opts.element_comp) (buffersize : Nat) (op : SetConcat)
    (inputs subtrahends : List (List Char)) (input : List Char) :
    List.Pairwise
      (fun a b => opts.element_comp a b = true ∧ equivB opts.element_comp a b = false)
      (file_to_set opts buffersize input) ∧
    List.Pairwise
      (fun a b => opts.element_comp a b = true ∧ equivB opts.element_comp a b = false)
      (primary_fold opts.element_comp op (inputs.map (file_to_set opts buffersize))) ∧
    List.Pairwise
      (fun a b => opts.element_comp a b = true ∧ equivB opts.element_comp a b = false)
      (execute_setop_sets opts buffersize op inputs subtrahends) := by
  have hmap : ∀ s ∈ inputs.map (file_to_set opts buffersize),
      SetInv opts.element_comp s := by
    intro s hs
    obtain ⟨i, _, rfl⟩ := List.mem_map.1 hs
    exact SetInv_file_to_set opts buffersize i
  have himp : ∀ a b : String, opts.element_comp a b = true →
      opts.element_comp a b = true ∧ equivB opts.element_comp a b = false := by
    intro a b hab
    exact ⟨hab, by simp [equivB, hab]⟩
  refine ⟨?_, ?_, ?_⟩
  · exact ((setInv_iff_pairwise _ htrans _).1
      (SetInv_file_to_set opts buffersize input)).imp (himp _ _)
  · exact ((setInv_iff_pairwise _ htrans _).1
      (SetInv_primary_fold htrans op _ hmap)).imp (himp _ _)
  · exact ((setInv_iff_pairwise _ htrans _).1
      (SetInv_subtract_fold htrans _ _ (SetInv_primary_fold htrans op _ hmap))).imp
      (himp _ _)

theorem C4_elementset_invariant_witness :
    List.Pairwise
      (fun a b => (sepOpts false).element_comp a b = true ∧
        equivB (sepOpts false).element_comp a b = false)
      (file_to_set (sepOpts false) 4 "a\nb\na\n".data) ∧
    List.Pairwise
      (fun a b => (sepOpts false).element_comp a b = true ∧
        equivB (sepOpts false).element_comp a b = false)
      (primary_fold (sepOpts false).element_comp SetConcat.UNION
        (["a\nb\n".data, "b\nc\n".data].map (file_to_set (sepOpts false) 4))) ∧
    List.Pairwise
      (fun a b => (sepOpts false).element_comp a b = true ∧
        equivB (sepOpts false).element_comp a b = false)
      (execute_setop_sets (sepOpts false) 4 SetConcat.UNION
        ["a\nb\n".data, "b\nc\n".data] ["b\n".data]) :=
  C4_elementset_invariant (sepOpts false) lexLtB_trans 4 SetConcat.UNION
    ["a\nb\n".data, "b\nc\n".data] ["b\n".data] "a\nb\na\n".data

/-- C5: the SUBSET query succeeds iff every element of the comparison set
`set_to_check` (loaded from the named comparison source) is found in the
result set, and the SUPERSET query succeeds iff every element of the
result set is found in the comparison set; for R = {"x", "y"},
C = {"x"} the subset query succeeds, for R = {"x"}, C = {"x", "y"} it
fails, and at the latter pair the two queries disagree. -/
theorem C5_subset_superset_queries :
    (∀ (comp : el_comp_t) (output_set set_to_check : List String),
      (subset_query comp output_set set_to_check = true ↔
        ∀ x ∈ set_to_check, memB comp output_set x = true) ∧
      (superset_query comp output_set set_to_check = true ↔
        ∀ x ∈ output_set, memB comp set_to_check x = true)) ∧
    subset_query lexLtB ["x", "y"] ["x"] = true ∧
    subset_query lexLtB ["x"] ["x", "y"] = false ∧
    superset_query lexLtB ["x"] ["x", "y"] = true ∧
    superset_query lexLtB ["x", "y"] ["x"] = false ∧
    subset_query lexLtB ["x"] ["x", "y"] ≠ superset_query lexLtB ["x"] ["x", "y"] := by
  refine ⟨?_, by decide, by decide, by decide, by decide, by decide⟩
  intro comp output_set set_to_check
  constructor
  · simp [subset_query, List.all_eq_true]
  · simp [superset_query, List.all_eq_true]

theorem C5_subset_superset_queries_witness :
    memB lexLtB ["x", "y"] "x" = true :=
  (C5_subset_superset_queries.1 lexLtB ["x", "y"] ["x"]).1.mp (by decide) "x"
    (by simp)

/-- C6: with a strict-weak-order comparator and invariant source sets,
the symmetric-difference fold over all input sources (the first set
initializing the accumulator, every further set toggling membership of
each of its elements, lines 505–513) contains exactly the elements that
are present in an odd number of the source sets. -/
theorem C6_symdiff_parity (comp : el_comp_t) (htrans : CompTrans comp)
    (hequiv : CompEquivTrans comp) (s0 : List String)
    (rest : List (List String)) (hs0 : SetInv comp s0)
    (hrest : ∀ s ∈ rest, SetInv comp s) (x : String) :
    memB comp (primary_fold comp SetConcat.SYM_DIFFERENCE (s0 :: rest)) x = true ↔
      ((s0 :: rest).countP (fun s => memB comp s x)) % 2 = 1 := by
  rw [memB_primary_sym htrans hequiv x rest s0 hs0 hrest]
  simp

theorem C6_symdiff_parity_witness :
    memB lexLtB
      (primary_fold lexLtB SetConcat.SYM_DIFFERENCE
        [["a", "b"], ["b", "c"], ["c"]]) "a" = true :=
  (C6_symdiff_parity lexLtB lexLtB_trans lexLtB_equivTrans ["a", "b"]
    [["b", "c"], ["c"]] (by decide) (by decide) "a").mpr (by decide)

/-- C7: for every primary operation and every list of subtrahend
sources, the program's combination is exactly the subtraction pass run
after the primary fold; with zero subtrahend sources the accumulator is
returned unchanged; and the subtraction pass (a fixed left-to-right fold
of set-difference, lines 521–526, independent of the operation tag)
removes exactly the elements present in some subtrahend set. -/
theorem C7_subtraction_pass (comp : el_comp_t) (htrans : CompTrans comp)
    (hequiv : CompEquivTrans comp) (op : SetConcat)
    (sets diffs : List (List String)) (hsets : ∀ s ∈ sets, SetInv comp s) :
    setop_combine comp op sets diffs
        = subtract_fold comp (primary_fold comp op sets) diffs ∧
    setop_combine comp op sets [] = primary_fold comp op sets ∧
    ∀ x, memB comp (setop_combine comp op sets diffs) x = true ↔
      (memB comp (primary_fold comp op sets) x = true ∧
        ∀ d ∈ diffs, memB comp d x = false) := by
  refine ⟨rfl, rfl, ?_⟩
  intro x
  show memB comp (subtract_fold comp (primary_fold comp op sets) diffs) x = true ↔ _
  rw [memB_subtract_fold htrans hequiv x diffs _
    (SetInv_primary_fold htrans op sets hsets)]
  simp [List.all_eq_true]

theorem C7_subtraction_pass_witness :
    memB lexLtB
      (setop_combine lexLtB SetConcat.UNION [["a", "b"], ["b", "c"]] [["b"]]) "a"
      = true :=
  ((C7_subtraction_pass lexLtB lexLtB_trans lexLtB_equivTrans SetConcat.UNION
    [["a", "b"], ["b", "c"]] [["b"]] (by decide)).2.2 "a").mpr
    ⟨by decide, by decide⟩

/-- C9: union of an invariant set with itself (the two-source run
`primary_fold UNION [S, S]`) is the set itself, and symmetric difference
of a set with itself is the empty set (the comparator being a strict
weak order, as both installed comparators are). -/
theorem C9_idempotence (comp : el_comp_t) (htrans : CompTrans comp)
    (hequiv : CompEquivTrans comp) (hirr : CompIrrefl comp)
    (S : List String) (hS : SetInv comp S) :
    primary_fold comp SetConcat.UNION [S, S] = S ∧
    primary_fold comp SetConcat.SYM_DIFFERENCE [S, S] = [] := by
  constructor
  · show S.foldl (fun acc el => insertE comp acc el) S = S
    exact foldl_insertE_self htrans hS S (fun x hx => memB_of_mem hirr hx)
  · apply eq_nil_of_no_memB hirr
    intro y
    show memB comp
      (S.foldl
        (fun acc el =>
          if memB comp acc el then eraseE comp acc el else insertE comp acc el) S) y
      = false
    rw [memB_symfold htrans hequiv y S S hS hS]
    cases memB comp S y <;> simp

theorem C9_idempotence_witness :
    primary_fold lexLtB SetConcat.UNION [["a", "b"], ["a", "b"]] = ["a", "b"] ∧
    primary_fold lexLtB SetConcat.SYM_DIFFERENCE [["a", "b"], ["a", "b"]] = [] :=
  C9_idempotence lexLtB lexLtB_trans lexLtB_equivTrans lexLtB_irrefl ["a", "b"]
    (by decide)

/-- C8: every query evaluates to exactly one of three outcomes:
the unconditional queries (`RETURN_SET`, `CARDINALITY`) and a boolean
query evaluating to true yield `EXIT_SUCCESS`; a boolean query
evaluating to false yields `EXIT_QUERY_NEGATIVE`, which differs from
both the conventional success code and the generic failure code
`EXIT_FAILURE` (the three codes are pairwise distinct, as the
preprocessor assertion of lines 45–47 demands). -/
theorem C8_exit_codes (opts : InputOptions) (q : SetQuery) (env : QueryEnv) :
    (query_exit opts q env =
      match query_bool opts q env with
      | none => EXIT_SUCCESS
      | some true => EXIT_SUCCESS
      | some false => EXIT_QUERY_NEGATIVE) ∧
    ((q = SetQuery.RETURN_SET ∨ q = SetQuery.CARDINALITY) ↔
      query_bool opts q env = none) ∧
    EXIT_QUERY_NEGATIVE ≠ EXIT_SUCCESS ∧
    EXIT_QUERY_NEGATIVE ≠ EXIT_FAILURE ∧
    EXIT_SUCCESS ≠ EXIT_FAILURE := by
  refine ⟨?_, ?_, by decide, by decide, by decide⟩
  · cases q with
    | RETURN_SET => rfl
    | CARDINALITY => rfl
    | ISEMPTY =>
      cases h : env.output_set.isEmpty <;>
        simp [query_exit, query_bool, answer_query, h]
    | SUBSET =>
      cases h : subset_query opts.element_comp env.output_set env.subset_set <;>
        simp [query_exit, query_bool, answer_query, h]
    | SUPERSET =>
      cases h : superset_query opts.element_comp env.output_set env.superset_set <;>
        simp [query_exit, query_bool, answer_query, h]
    | CONTAINS_ELEMENT =>
      cases h : memB opts.element_comp env.output_set
          (String.mk (trimIf opts.trim_characters env.element_to_check.data)) <;>
        simp [query_exit, query_bool, answer_query, h]
    | SET_EQUALITY =>
      cases h : env.equal_set == env.output_set <;>
        simp [query_exit, query_bool, answer_query, h]
  · cases q <;> simp [query_bool]

theorem C8_exit_codes_witness :
    query_exit (sepOpts false) SetQuery.ISEMPTY ⟨["a"], [], [], [], ""⟩ =
      match query_bool (sepOpts false) SetQuery.ISEMPTY ⟨["a"], [], [], [], ""⟩ with
      | none => EXIT_SUCCESS
      | some true => EXIT_SUCCESS
      | some false => EXIT_QUERY_NEGATIVE :=
  (C8_exit_codes (sepOpts false) SetQuery.ISEMPTY ⟨["a"], [], [], [], ""⟩).1

/-- C10: in separator mode, when the stream is exhausted the leftover
pending bytes form a final candidate element exactly when at least one
pending byte remains (`use_separator_regex && used_buffer > 0`, lines
264–265).  Consequently an input that ends with a separator match never
yields a trailing element after that separator, even with the
empty-element inclusion flag set: "a\n" tokenizes to {"a"}, not
{"a", ""} — while the non-trailing empty element of "a\n\n" is
retained, showing the flag itself works. -/
theorem C10_trailing_pending :
    (∀ (opts : InputOptions) (buffersize : Nat) (input : List Char),
      (tokLoop opts (input.length + 1) ⟨buffersize, [], []⟩ input).pending = [] →
      file_to_set opts buffersize input
        = (tokLoop opts (input.length + 1) ⟨buffersize, [], []⟩ input).acc) ∧
    (∀ (opts : InputOptions) (buffersize : Nat) (input : List Char),
      opts.input_element_regex = none →
      (tokLoop opts (input.length + 1) ⟨buffersize, [], []⟩ input).pending ≠ [] →
      file_to_set opts buffersize input
        = adjust_and_insert_element opts true
            (tokLoop opts (input.length + 1) ⟨buffersize, [], []⟩ input).acc
            (tokLoop opts (input.length + 1) ⟨buffersize, [], []⟩ input).pending) ∧
    file_to_set (sepOpts true) 8 "a\n".data = ["a"] ∧
    file_to_set (sepOpts true) 8 "a\n\n".data = ["", "a"] := by
  refine ⟨?_, ?_, by decide, by decide⟩
  · intro opts bs input hp
    unfold file_to_set
    rw [hp]
    simp
  · intro opts bs input hel hp
    unfold file_to_set
    rw [hel]
    have hlen : 0 < (tokLoop opts (input.length + 1) ⟨bs, [], []⟩ input).pending.length :=
      List.length_pos.2 hp
    simp [hlen]

theorem C10_trailing_pending_witness :
    file_to_set (sepOpts true) 8 "a\n".data
      = (tokLoop (sepOpts true) ("a\n".data.length + 1) ⟨8, [], []⟩ "a\n".data).acc :=
  C10_trailing_pending.1 (sepOpts true) 8 "a\n".data (by decide)

theorem C2_round_finalization_witness :
    loopGo (sepOpts false) (RE.rchar '\n') true true "a\n".data 6 0 false 0 []
      = ((if true then
            sep_elements "a\n".data 0
              (finalizable (RE.rchar '\n') true "a\n".data
                (matchStream (RE.rchar '\n') "a\n".data 6 0 false))
          else
            (finalizable (RE.rchar '\n') true "a\n".data
              (matchStream (RE.rchar '\n') "a\n".data 6 0 false)).map
              (fun m => slice "a\n".data m.pos (m.pos + m.len))).foldl
          (fun a e => adjust_and_insert_element (sepOpts false) true a e) [],
         if true then
           sep_handled 0
             (finalizable (RE.rchar '\n') true "a\n".data
               (matchStream (RE.rchar '\n') "a\n".data 6 0 false))
         else
           elem_handled "a\n".data
             (matchStream (RE.rchar '\n') "a\n".data 6 0 false)
             (finalizable (RE.rchar '\n') true "a\n".data
               (matchStream (RE.rchar '\n') "a\n".data 6 0 false))) :=
  C2_round_finalization (sepOpts false) (RE.rchar '\n') true true "a\n".data
    6 0 false 0 []

theorem C3_buffer_growth_witness :
    ((0 : Nat) < (⟨2, [], []⟩ : TokState).cap ∧
      (tokRound (sepOpts false) ⟨2, [], []⟩ "abc".data).2.2 = false) ∧
    ((tokRound (sepOpts false) ⟨2, [], []⟩ "abc".data).1.cap
        = 2 * (⟨2, [], []⟩ : TokState).cap ↔
      (tokRound (sepOpts false) ⟨2, [], []⟩ "abc".data).1.pending
        = (⟨2, [], []⟩ : TokState).pending ++
            "abc".data.take
              ((⟨2, [], []⟩ : TokState).cap
                - (⟨2, [], []⟩ : TokState).pending.length)) ∧
    ((tokRound (sepOpts false) ⟨2, [], []⟩ "abc".data).1.cap
        ≠ 2 * (⟨2, [], []⟩ : TokState).cap →
      (tokRound (sepOpts false) ⟨2, [], []⟩ "abc".data).1.cap
        = (⟨2, [], []⟩ : TokState).cap) ∧
    (tokRound (sepOpts false) ⟨2, [], []⟩ "abc".data).1.pending
      <:+ (⟨2, [], []⟩ : TokState).pending ++
            "abc".data.take
              ((⟨2, [], []⟩ : TokState).cap
                - (⟨2, [], []⟩ : TokState).pending.length) :=
  ⟨⟨by decide, by decide⟩,
    (C3_buffer_growth (sepOpts false) ⟨2, [], []⟩ "abc".data (by decide)
      (by decide)).1,
    (C3_buffer_growth (sepOpts false) ⟨2, [], []⟩ "abc".data (by decide)
      (by decide)).2.1,
    (C3_buffer_growth (sepOpts false) ⟨2, [], []⟩ "abc".data (by decide)
      (by decide)).2.2⟩

end Setop
